import Mathlib

/-!
Verification development for the md2pdf tool (src/main.rs).

The tool aggregates Markdown files into one HTML document and exports it to
PDF via an external headless browser.  The shallow embedding below models
text as lists of unicode scalar values (`Str`), mirrors the two line-oriented
preprocessors (`preprocess_markdown`, `preprocess_markdown_single_file`), the
assembler (`create_combined_markdown`), the discoverer
(`collect_markdown_files` over a walk-entry list, with the `BTreeMap`
modelled as a key-sorted association list), and the HTML renderer
(`markdown_to_html`, with the external pulldown-cmark parser abstracted as a
function parameter `parse`).  The external PDF exporter is out of scope.
-/

namespace MdToPdf

/-- Text as a list of unicode scalar values: the shallow embedding of Rust
strings (`String` / `&str`). -/
abbrev Str := List Char

/-- The backtick character, written by code point. -/
def backtick : Char := Char.ofNat 96

/-- Embedding of Rust `char::is_whitespace`: the Unicode `White_Space`
property, enumerated by code point. -/
def isRustWhitespace (c : Char) : Bool :=
  decide (c.toNat = 9 ∨ c.toNat = 10 ∨ c.toNat = 11 ∨ c.toNat = 12 ∨ c.toNat = 13 ∨
    c.toNat = 32 ∨ c.toNat = 133 ∨ c.toNat = 160 ∨ c.toNat = 5760 ∨
    (8192 ≤ c.toNat ∧ c.toNat ≤ 8202) ∨ c.toNat = 8232 ∨ c.toNat = 8233 ∨
    c.toNat = 8239 ∨ c.toNat = 8287 ∨ c.toNat = 12288)

/-- Drop trailing whitespace. -/
def trimEnd (s : Str) : Str := (s.reverse.dropWhile isRustWhitespace).reverse

/-- Embedding of Rust `str::trim`: drop leading and trailing whitespace. -/
def rustTrim (s : Str) : Str := trimEnd (s.dropWhile isRustWhitespace)

/-- The test `trimmed.starts_with("```")` used by both preprocessors. -/
def startsWithFence (t : Str) : Bool :=
  match t with
  | a :: b :: c :: _ => decide (a = backtick ∧ b = backtick ∧ c = backtick)
  | _ => false

/-- The test `trimmed.starts_with('#')` used by `preprocess_markdown`. -/
def startsWithHash (t : Str) : Bool :=
  match t with
  | c :: _ => decide (c = '#')
  | [] => false

/-- Length of the leading run of `#` characters:
`trimmed.chars().take_while(|&c| c == '#').count()`. -/
def leadHash (t : Str) : Nat := (t.takeWhile (fun c => decide (c = '#'))).length

/-- Rust `str::lines` removes one trailing `\r` from a segment that was
terminated by a `\n` (but not from a final unterminated segment). -/
def stripCR (l : Str) : Str := if l.getLast? = some '\r' then l.dropLast else l

/-- Worker for `rustLines`; `cur` holds the characters of the current line in
reverse order. -/
def linesAux (cur : Str) : Str → List Str
  | [] => if cur.isEmpty then [] else [cur.reverse]
  | c :: rest =>
    if c = '\n' then stripCR cur.reverse :: linesAux [] rest
    else linesAux (c :: cur) rest

/-- Embedding of Rust `str::lines`: split at `\n`, strip a `\r` preceding a
`\n`, and do not yield a final empty segment after a terminating `\n`. -/
def rustLines (s : Str) : List Str := linesAux [] s

/-- Concatenation of a list of lists. -/
def joinAll {α : Type} (ls : List (List α)) : List α := ls.foldr (fun a b => a ++ b) []

/-- Loop body of `preprocess_markdown_single_file` (src/main.rs:114-135) over
the remaining lines, carrying the `in_code_block` flag. -/
def singleFileGo (in_code_block : Bool) : List Str → Str
  | [] => []
  | line :: rest =>
    if startsWithFence (rustTrim line) then singleFileGo (!in_code_block) rest
    else if in_code_block then singleFileGo in_code_block rest
    else line ++ ('\n' :: singleFileGo in_code_block rest)

/-- Embedding of `preprocess_markdown_single_file` (src/main.rs:114-135):
drop fence-delimiter lines and fenced content, copy every other line
verbatim followed by a newline. -/
def preprocess_markdown_single_file (markdown : Str) : Str :=
  singleFileGo false (rustLines markdown)

/-- Loop body of `preprocess_markdown` (src/main.rs:137-168) over the
remaining lines, carrying the `in_code_block` flag.  Outside fences, a line
whose trimmed form starts with `#` is re-emitted as
`"#".repeat(hash_count + 2) ++ trimmed[hash_count..]`. -/
def combinedGo (in_code_block : Bool) : List Str → Str
  | [] => []
  | line :: rest =>
    if startsWithFence (rustTrim line) then combinedGo (!in_code_block) rest
    else if in_code_block then combinedGo in_code_block rest
    else
      (if startsWithHash (rustTrim line) && !in_code_block then
        List.replicate (leadHash (rustTrim line) + 2) '#' ++
          (rustTrim line).drop (leadHash (rustTrim line))
      else line) ++ ('\n' :: combinedGo in_code_block rest)

/-- Embedding of `preprocess_markdown` (src/main.rs:137-168). -/
def preprocess_markdown (markdown : Str) : Str :=
  combinedGo false (rustLines markdown)

/-- Specification-level fence automaton shared by both preprocessors: a line
whose trimmed form starts with three backticks toggles the flag and is
dropped; while the flag is set every line is dropped; all other lines are
kept. -/
def dropFenced (in_code_block : Bool) : List Str → List Str
  | [] => []
  | line :: rest =>
    if startsWithFence (rustTrim line) then dropFenced (!in_code_block) rest
    else if in_code_block then dropFenced in_code_block rest
    else line :: dropFenced in_code_block rest

/-- Per-line heading rewrite actually performed by `preprocess_markdown`
outside fences, stated compositionally: count the `#` run of the trimmed
line and re-emit `k + 2` hashes followed by the remainder of the trimmed
line; non-heading lines are kept verbatim. -/
def headingAdjustLine (line : Str) : Str :=
  if startsWithHash (rustTrim line) then
    List.replicate (leadHash (rustTrim line) + 2) '#' ++
      (rustTrim line).drop (leadHash (rustTrim line))
  else line

/-- Claim C1's literal per-line transform, following the claim's words: `k`
is the leading `#` run length of the original line and the remainder of the
original line is kept unchanged. -/
def claimHeadingLine (line : Str) : Str :=
  if startsWithHash (rustTrim line) then
    List.replicate (leadHash line + 2) '#' ++ line.drop (leadHash line)
  else line

/-- Number of fence-delimiter lines in a line list. -/
def countFence (L : List Str) : Nat :=
  (L.filter (fun l => startsWithFence (rustTrim l))).length

/-- Fence flag obtained after scanning the given lines starting from `b`. -/
def fenceToggle (b : Bool) (L : List Str) : Bool :=
  L.foldl (fun st l => if startsWithFence (rustTrim l) then !st else st) b

/-- Segment of the HTML template (src/main.rs:190-274) before the `{theme}`
slot. -/
def pageSeg1 : Str :=
  ("<!DOCTYPE html>\n<html>\n<head>\n    <meta charset=\"utf-8\">\n    <title>Markdown to PDF</title>\n    <style>\n".data)
  ++ ("        body \x7b\n            font-family: -apple-system, BlinkMacSystemFont, \x27Segoe UI\x27, Roboto, sans-serif;\n".data)
  ++ ("            line-height: 1.6;\n            max-width: 800px;\n            margin: 0 auto;\n            padding: 20px;\n            ".data)

/-- Segment of the HTML template between the `{theme}` slot and the first
`{code_bg}` slot. -/
def pageSeg2 : Str :=
  ("\n        \x7d\n        \n        h1, h2, h3, h4, h5, h6 \x7b\n            margin-top: 1.5em;\n            margin-bottom: 0.5em;\n        \x7d\n        \n".data)
  ++ ("        h1 \x7b font-size: 2em; border-bottom: 2px solid #eee; padding-bottom: 0.3em; \x7d\n        h2 \x7b font-size: 1.5em; border-bottom: 1px solid #eee; padding-bottom: 0.3em; \x7d\n        \n".data)
  ++ ("        code \x7b\n            background-color: ".data)

/-- Segment of the HTML template between the two `{code_bg}` slots. -/
def pageSeg3 : Str :=
  (";\n            padding: 2px 4px;\n            border-radius: 3px;\n            font-family: \x27Courier New\x27, monospace;\n        \x7d\n        \n        pre \x7b\n            background-color: ".data)

/-- Segment of the HTML template between the second `{code_bg}` slot and the
`{header_bg}` slot. -/
def pageSeg4 : Str :=
  (";\n            padding: 15px;\n            border-radius: 5px;\n            overflow-x: auto;\n        \x7d\n        \n".data)
  ++ ("        pre code \x7b\n            background-color: transparent;\n            padding: 0;\n        \x7d\n        \n".data)
  ++ ("        blockquote \x7b\n            border-left: 4px solid #ddd;\n            margin: 0;\n            padding-left: 20px;\n            color: #666;\n        \x7d\n        \n".data)
  ++ ("        table \x7b\n            border-collapse: collapse;\n            width: 100%;\n            margin: 1em 0;\n        \x7d\n        \n".data)
  ++ ("        th, td \x7b\n            border: 1px solid #ddd;\n            padding: 8px 12px;\n            text-align: left;\n        \x7d\n        \n".data)
  ++ ("        th \x7b\n            background-color: ".data)

/-- Segment of the HTML template between the `{header_bg}` slot and the
`{html_output}` slot. -/
def pageSeg5 : Str :=
  (";\n            font-weight: bold;\n        \x7d\n        \n".data)
  ++ ("        img \x7b\n            max-width: 100%;\n            height: auto;\n        \x7d\n        \n".data)
  ++ ("        ul, ol \x7b\n            margin: 1em 0;\n            padding-left: 2em;\n        \x7d\n        \n".data)
  ++ ("        li \x7b\n            margin: 0.5em 0;\n        \x7d\n".data)
  ++ ("    </style>\n</head>\n<body>\n".data)

/-- Segment of the HTML template after the `{html_output}` slot. -/
def pageSeg6 : Str := ("\n</body>\n</html>".data)

/-- Embedding of `markdown_to_html` (src/main.rs:170-280).  The external
pulldown-cmark parser (invoked with the strikethrough, tables, footnotes and
tasklists extensions) is abstracted as the function parameter `parse`. -/
def markdown_to_html (parse : Str → Str) (markdown : Str) (dark_mode : Bool) : Str :=
  let processed_markdown := preprocess_markdown_single_file markdown
  let html_output := parse processed_markdown
  let theme :=
    if dark_mode then ("background-color: #1a1a1a; color: #e0e0e0;".data)
    else ("background-color: white; color: black;".data)
  let code_bg := if dark_mode then ("#2d2d2d".data) else ("#f5f5f5".data)
  let header_bg := if dark_mode then ("#3a3a3a".data) else ("#f9f9f9".data)
  pageSeg1 ++ theme ++ pageSeg2 ++ code_bg ++ pageSeg3 ++ code_bg ++ pageSeg4 ++
    header_bg ++ pageSeg5 ++ html_output ++ pageSeg6

/-- A discovered Markdown file (struct `MarkdownFile`, src/main.rs:32-37).
Paths are modelled as component lists relative to the scanned root. -/
structure MarkdownFile where
  path : List Str
  content : Str
  name : Str
  deriving DecidableEq, Repr

/-- The root-group sentinel label `"Root"`. -/
def rootKey : Str := ("Root".data)

/-- The document extension literal `"md"`. -/
def mdExt : Str := ("md".data)

/-- Embedding of Rust `Path::extension` applied to a file name: the portion
after the final `.`, or `None` when there is no `.` or when the name begins
with its only `.`. -/
def rustExtension (fname : Str) : Option Str :=
  let after := fname.reverse.takeWhile (fun c => decide (c ≠ '.'))
  if after.length = fname.length then none
  else if after.length + 1 = fname.length then none
  else some after.reverse

/-- Embedding of Rust `Path::file_stem` applied to a file name: the portion
before the final `.`, or the whole name when `rustExtension` is `None`. -/
def rustStem (fname : Str) : Str :=
  let after := fname.reverse.takeWhile (fun c => decide (c ≠ '.'))
  if after.length = fname.length then fname
  else if after.length + 1 = fname.length then fname
  else fname.take (fname.length - after.length - 1)

/-- One entry produced by the `WalkDir` traversal, after the `filter_map(ok)`
step: a path (components relative to the scanned root), whether it is a
regular file, and the result of reading it (`none` models a read failure). -/
structure DirEntry where
  relPath : List Str
  isFile : Bool
  content : Option Str
  deriving DecidableEq, Repr

/-- The selection test of the walk loop (src/main.rs:45-46):
`is_file` and `extension == "md"`. -/
def eligible (e : DirEntry) : Bool :=
  e.isFile &&
    (match e.relPath.getLast? with
     | none => false
     | some f => decide (rustExtension f = some mdExt))

/-- Join path components with `/`, the textual form of a relative path. -/
def joinSlash : List Str → Str
  | [] => []
  | [c] => c
  | c :: rest => c ++ ('/' :: joinSlash rest)

/-- Embedding of `parent_dir.replace('/', " > ")` (src/main.rs:68). -/
def replaceSlash : Str → Str
  | [] => []
  | c :: rest => if c = '/' then (" > ".data) ++ replaceSlash rest else c :: replaceSlash rest

/-- Group key of an entry (src/main.rs:58-69): the parent directory made
relative to the root; `"Root"` when that is empty, otherwise the path with
`/` replaced by `" > "`. -/
def dirKeyE (e : DirEntry) : Str :=
  let parent_dir := joinSlash e.relPath.dropLast
  if parent_dir.isEmpty then rootKey else replaceSlash parent_dir

/-- The `MarkdownFile` record built for an eligible entry whose read
succeeded (src/main.rs:52-78): the name is the file stem, with the
`"Untitled"` fallback of `unwrap_or`. -/
def mkFile (e : DirEntry) (c : Str) : MarkdownFile :=
  { path := e.relPath
    content := c
    name :=
      match e.relPath.getLast? with
      | none => ("Untitled".data)
      | some f => rustStem f }

/-- Lexicographic comparison of strings by unicode scalar value; the order
used by Rust `String`/`str` `Ord` (UTF-8 byte order coincides with scalar
value order) and hence by the `BTreeMap` and by `sort_by(name.cmp)`. -/
def strLt : Str → Str → Bool
  | _, [] => false
  | [], _ :: _ => true
  | a :: as, b :: bs => if a < b then true else if a = b then strLt as bs else false

/-- Insertion into the key-sorted association list modelling the `BTreeMap`:
`files_by_dir.entry(dir_key).or_insert_with(Vec::new).push(file)`. -/
def insertFile : List (Str × List MarkdownFile) → Str → MarkdownFile → List (Str × List MarkdownFile)
  | [], key, f => [(key, [f])]
  | (k, fs) :: rest, key, f =>
    if strLt key k then (key, [f]) :: (k, fs) :: rest
    else if key = k then (k, fs ++ [f]) :: rest
    else (k, fs) :: insertFile rest key f

/-- Stable insertion by ascending `name`, modelling one step of
`files.sort_by(|a, b| a.name.cmp(&b.name))`. -/
def insertSorted (f : MarkdownFile) : List MarkdownFile → List MarkdownFile
  | [] => [f]
  | g :: gs => if strLt f.name g.name then f :: g :: gs else g :: insertSorted f gs

/-- Stable sort of a group's files by ascending `name`
(src/main.rs:82-84). -/
def sortFiles (fs : List MarkdownFile) : List MarkdownFile :=
  fs.foldl (fun acc f => insertSorted f acc) []

/-- Failure of `collect_markdown_files`: a selected file could not be read
(src/main.rs:49-50). -/
inductive CollectError where
  | readError (path : List Str)
  deriving DecidableEq, Repr

/-- Walk loop of `collect_markdown_files` (src/main.rs:42-79) over the
remaining entries, accumulating the grouped map. -/
def collectGo : List (Str × List MarkdownFile) → List DirEntry → Except CollectError (List (Str × List MarkdownFile))
  | acc, [] => Except.ok acc
  | acc, e :: rest =>
    if eligible e then
      match e.content with
      | none => Except.error (CollectError.readError e.relPath)
      | some c => collectGo (insertFile acc (dirKeyE e) (mkFile e c)) rest
    else collectGo acc rest

/-- Embedding of `collect_markdown_files` (src/main.rs:39-87): walk the
entries, group eligible files by directory key, then sort every group by
name. -/
def collect_markdown_files (entries : List DirEntry) : Except CollectError (List (Str × List MarkdownFile)) :=
  match collectGo [] entries with
  | Except.error err => Except.error err
  | Except.ok files_by_dir =>
    Except.ok (files_by_dir.map (fun g => (g.1, sortFiles g.2)))

/-- Embedding of `create_combined_markdown` (src/main.rs:89-112), with the
mutable `combined` string modelled as a fold accumulator. -/
def create_combined_markdown (files_by_dir : List (Str × List MarkdownFile)) (title : Str) : Str :=
  files_by_dir.foldl
    (fun combined g =>
      (g.2.foldl
        (fun c f =>
          c ++ ("## ".data) ++ f.name ++ ("\n\n".data) ++
            preprocess_markdown f.content ++ ("\n\n---\n\n".data))
        (if g.1 ≠ rootKey then combined ++ ("# ".data) ++ g.1 ++ ("\n\n".data) else combined)))
    (("# ".data) ++ title ++ ("\n\n".data))

/-- Specification-level block emitted for one document by the assembler. -/
def docBlock (file : MarkdownFile) : Str :=
  ("## ".data) ++ file.name ++ ("\n\n".data) ++
    preprocess_markdown file.content ++ ("\n\n---\n\n".data)

/-- Specification-level block emitted for one group by the assembler. -/
def groupBlock (g : Str × List MarkdownFile) : Str :=
  (if g.1 = rootKey then [] else ("# ".data) ++ g.1 ++ ("\n\n".data)) ++
    joinAll (g.2.map docBlock)

/-- Errors surfaced by the directory pipeline of `main`
(src/main.rs:303-333). -/
inductive PipelineError where
  | readError (path : List Str)
  | noMdFiles
  deriving DecidableEq, Repr

/-- The directory-mode rendering step of `main` (src/main.rs:326-330):
assemble the combined document and render it. -/
def directory_render (parse : Str → Str) (files_by_dir : List (Str × List MarkdownFile)) (title : Str) (dark_mode : Bool) : Str :=
  markdown_to_html parse (create_combined_markdown files_by_dir title) dark_mode

/-- The directory branch of `main` (src/main.rs:303-330): collect, fail when
no `.md` file was found, otherwise assemble and render. -/
def directory_mode (parse : Str → Str) (entries : List DirEntry) (title : Str) (dark_mode : Bool) : Except PipelineError Str :=
  match collect_markdown_files entries with
  | Except.error (CollectError.readError p) => Except.error (PipelineError.readError p)
  | Except.ok files_by_dir =>
    if files_by_dir.isEmpty then Except.error PipelineError.noMdFiles
    else Except.ok (directory_render parse files_by_dir title dark_mode)

/-- The single-file branch of `main` (src/main.rs:296-302): the raw file
content is preprocessed with the non-offsetting variant and then handed to
`markdown_to_html` (which preprocesses again). -/
def single_file_mode (parse : Str → Str) (markdown_content : Str) (dark_mode : Bool) : Str :=
  markdown_to_html parse (preprocess_markdown_single_file markdown_content) dark_mode

/-- All `(key, file)` pairs of a grouped map, in iteration order. -/
def flattenGroups (m : List (Str × List MarkdownFile)) : List (Str × MarkdownFile) :=
  joinAll (m.map (fun g => g.2.map (fun f => (g.1, f))))

/-- A walk-entry list exercising the discoverer: files `a/y.md`, `top.md`,
`b/z.md`, `a/x.md`, discovered in that (unsorted) order. -/
def walkExample : List DirEntry :=
  [ { relPath := [("a".data), ("y.md".data)], isFile := true, content := some ("y body".data) }
  , { relPath := [("top.md".data)], isFile := true, content := some ("top body".data) }
  , { relPath := [("b".data), ("z.md".data)], isFile := true, content := some ("z body".data) }
  , { relPath := [("a".data), ("x.md".data)], isFile := true, content := some ("x body".data) } ]

/-- The grouped map the discoverer produces for `walkExample`. -/
def walkResult : List (Str × List MarkdownFile) :=
  [ (rootKey,
      [ { path := [("top.md".data)], content := ("top body".data), name := ("top".data) } ])
  , (("a".data),
      [ { path := [("a".data), ("x.md".data)], content := ("x body".data), name := ("x".data) }
      , { path := [("a".data), ("y.md".data)], content := ("y body".data), name := ("y".data) } ])
  , (("b".data),
      [ { path := [("b".data), ("z.md".data)], content := ("z body".data), name := ("z".data) } ]) ]

/-- A walk entry that is a regular file but not a Markdown file. -/
def txtEntry : DirEntry :=
  { relPath := [("notes.txt".data)], isFile := true, content := some ("hello".data) }

/-- Specification-level description of what the discoverer extracts from one
walk entry: `none` for ineligible or unreadable entries, otherwise the group
key paired with the constructed `MarkdownFile`. -/
def entryPair (e : DirEntry) : Option (Str × MarkdownFile) :=
  if eligible e then
    match e.content with
    | some c => some (dirKeyE e, mkFile e c)
    | none => none
  else none

/-- All `(key, file)` pairs the discoverer extracts from a walk-entry list,
in walk order. -/
def eligiblePairs (entries : List DirEntry) : List (Str × MarkdownFile) :=
  entries.filterMap entryPair

/-! Basic lemmas about `joinAll`, `rustLines` and `dropFenced`. -/

@[simp] theorem joinAll_nil {α : Type} : joinAll ([] : List (List α)) = [] := rfl

@[simp] theorem joinAll_cons {α : Type} (x : List α) (xs : List (List α)) :
    joinAll (x :: xs) = x ++ joinAll xs := rfl

theorem mem_stripCR {c : Char} {l : Str} (h : c ∈ stripCR l) : c ∈ l := by
  unfold stripCR at h
  split at h
  · exact (List.dropLast_sublist l).subset h
  · exact h

theorem stripCR_eq_self {l : Str} (h : '\r' ∉ l) : stripCR l = l := by
  have hne : l.getLast? ≠ some '\r' := by
    intro hl
    rcases List.getLast?_eq_some_iff.mp hl with ⟨ys, rfl⟩
    exact h (by simp)
  simp [stripCR, hne]

theorem linesAux_no_newline :
    ∀ (s cur : Str), '\n' ∉ cur → ∀ l ∈ linesAux cur s, '\n' ∉ l := by
  intro s
  induction s with
  | nil =>
    intro cur hc l hl
    by_cases he : cur.isEmpty = true
    · simp [linesAux, he] at hl
    · simp [linesAux, he] at hl
      subst hl
      simpa [List.mem_reverse] using hc
  | cons c rest ih =>
    intro cur hc l hl
    by_cases hcn : c = '\n'
    · subst hcn
      simp only [linesAux, if_pos rfl] at hl
      rcases List.mem_cons.mp hl with h1 | h2
      · subst h1
        intro hm
        exact hc (List.mem_reverse.mp (mem_stripCR hm))
      · exact ih [] (by simp) l h2
    · simp only [linesAux, if_neg hcn] at hl
      refine ih (c :: cur) ?_ l hl
      intro hm
      rcases List.mem_cons.mp hm with h | h
      · exact hcn h.symm
      · exact hc h

theorem rustLines_no_newline {s : Str} : ∀ l ∈ rustLines s, '\n' ∉ l :=
  linesAux_no_newline s [] (by simp)

theorem linesAux_char_mem :
    ∀ (s cur l : Str), l ∈ linesAux cur s → ∀ c ∈ l, c ∈ cur ∨ c ∈ s := by
  intro s
  induction s with
  | nil =>
    intro cur l hl c hc
    by_cases he : cur.isEmpty = true
    · simp [linesAux, he] at hl
    · simp [linesAux, he] at hl
      subst hl
      exact Or.inl (List.mem_reverse.mp hc)
  | cons d rest ih =>
    intro cur l hl c hc
    by_cases hd : d = '\n'
    · subst hd
      simp only [linesAux, if_pos rfl] at hl
      rcases List.mem_cons.mp hl with h1 | h2
      · subst h1
        exact Or.inl (List.mem_reverse.mp (mem_stripCR hc))
      · rcases ih [] l h2 c hc with h | h
        · simp at h
        · exact Or.inr (List.mem_cons_of_mem _ h)
    · simp only [linesAux, if_neg hd] at hl
      rcases ih (d :: cur) l hl c hc with h | h
      · rcases List.mem_cons.mp h with h' | h'
        · exact Or.inr (by simp [h'])
        · exact Or.inl h'
      · exact Or.inr (List.mem_cons_of_mem _ h)

theorem rustLines_char_mem {s l : Str} (hl : l ∈ rustLines s) {c : Char} (hc : c ∈ l) :
    c ∈ s := by
  rcases linesAux_char_mem s [] l hl c hc with h | h
  · simp at h
  · exact h

theorem linesAux_cons_ne {c : Char} (hc : ¬(c = '\n')) (cur rest : Str) :
    linesAux cur (c :: rest) = linesAux (c :: cur) rest := by
  simp [linesAux, hc]

theorem linesAux_cons_nl (cur rest : Str) :
    linesAux cur ('\n' :: rest) = stripCR cur.reverse :: linesAux [] rest := by
  simp [linesAux]

theorem linesAux_line_append {l : Str} (hnl : '\n' ∉ l) :
    ∀ (cur rest : Str),
      linesAux cur (l ++ '\n' :: rest) = stripCR (cur.reverse ++ l) :: linesAux [] rest := by
  induction l with
  | nil =>
    intro cur rest
    simp [linesAux_cons_nl]
  | cons c l ih =>
    intro cur rest
    have hc : ¬(c = '\n') := fun h => hnl (by simp [h])
    have hl : '\n' ∉ l := fun h => hnl (List.mem_cons_of_mem _ h)
    show linesAux cur (c :: (l ++ '\n' :: rest)) = _
    rw [linesAux_cons_ne hc, ih hl (c :: cur) rest]
    simp

theorem rustLines_join {L : List Str} (h : ∀ l ∈ L, '\n' ∉ l) :
    rustLines (joinAll (L.map (fun l => l ++ ['\n']))) = L.map stripCR := by
  induction L with
  | nil => rfl
  | cons l rest ih =>
    have h1 : '\n' ∉ l := h l (by simp)
    have h2 : ∀ x ∈ rest, '\n' ∉ x := fun x hx => h x (List.mem_cons_of_mem _ hx)
    simp only [List.map_cons, joinAll_cons]
    have he : (l ++ ['\n']) ++ joinAll (rest.map (fun l => l ++ ['\n'])) =
        l ++ '\n' :: joinAll (rest.map (fun l => l ++ ['\n'])) := by
      simp
    rw [rustLines, he, linesAux_line_append h1]
    simp only [List.reverse_nil, List.nil_append]
    rw [show linesAux [] (joinAll (rest.map (fun l => l ++ ['\n']))) =
        rustLines (joinAll (rest.map (fun l => l ++ ['\n']))) from rfl, ih h2]

theorem mem_dropFenced : ∀ {L : List Str} {b : Bool} {l : Str}, l ∈ dropFenced b L → l ∈ L := by
  intro L
  induction L with
  | nil => intro b l h; simp [dropFenced] at h
  | cons x rest ih =>
    intro b l h
    by_cases hf : startsWithFence (rustTrim x) = true
    · simp only [dropFenced, if_pos hf] at h
      exact List.mem_cons_of_mem _ (ih h)
    · cases b with
      | true =>
        simp only [dropFenced, if_neg hf, if_pos rfl] at h
        exact List.mem_cons_of_mem _ (ih h)
      | false =>
        simp only [dropFenced, if_neg hf] at h
        rcases List.mem_cons.mp h with h' | h'
        · exact h' ▸ List.mem_cons_self _ _
        · exact List.mem_cons_of_mem _ (ih h')

theorem dropFenced_no_fence :
    ∀ {L : List Str} {b : Bool} {l : Str}, l ∈ dropFenced b L →
      startsWithFence (rustTrim l) = false := by
  intro L
  induction L with
  | nil => intro b l h; simp [dropFenced] at h
  | cons x rest ih =>
    intro b l h
    by_cases hf : startsWithFence (rustTrim x) = true
    · simp only [dropFenced, if_pos hf] at h
      exact ih h
    · cases b with
      | true =>
        simp only [dropFenced, if_neg hf, if_pos rfl] at h
        exact ih h
      | false =>
        simp only [dropFenced, if_neg hf] at h
        rcases List.mem_cons.mp h with h' | h'
        · subst h'
          exact Bool.eq_false_iff.mpr hf
        · exact ih h'

theorem dropFenced_all_keep :
    ∀ {L : List Str}, (∀ l ∈ L, startsWithFence (rustTrim l) = false) →
      dropFenced false L = L := by
  intro L
  induction L with
  | nil => intro _; rfl
  | cons x rest ih =>
    intro h
    have hx : startsWithFence (rustTrim x) = false := h x (by simp)
    simp only [dropFenced, hx]
    rw [ih (fun l hl => h l (List.mem_cons_of_mem _ hl))]
    simp

theorem dropFenced_inside_nil :
    ∀ {L : List Str}, (∀ l ∈ L, startsWithFence (rustTrim l) = false) →
      dropFenced true L = [] := by
  intro L
  induction L with
  | nil => intro _; rfl
  | cons x rest ih =>
    intro h
    have hx : startsWithFence (rustTrim x) = false := h x (by simp)
    simp only [dropFenced, hx]
    exact ih (fun l hl => h l (List.mem_cons_of_mem _ hl))

theorem countFence_cons (x : Str) (xs : List Str) :
    countFence (x :: xs) =
      if startsWithFence (rustTrim x) = true then countFence xs + 1 else countFence xs := by
  by_cases h : startsWithFence (rustTrim x) = true
  · simp [countFence, List.filter_cons, h]
  · simp [countFence, List.filter_cons, h]

theorem fenceToggle_eq_parity :
    ∀ (xs : List Str) (b : Bool),
      fenceToggle b xs = if countFence xs % 2 = 0 then b else !b := by
  intro xs
  induction xs with
  | nil => intro b; simp [fenceToggle, countFence]
  | cons x xs ih =>
    intro b
    by_cases hf : startsWithFence (rustTrim x) = true
    · have hstep : fenceToggle b (x :: xs) = fenceToggle (!b) xs := by
        simp [fenceToggle, hf]
      rw [hstep, ih (!b), countFence_cons, if_pos hf]
      rcases Nat.mod_two_eq_zero_or_one (countFence xs) with h | h
      · have h1 : (countFence xs + 1) % 2 = 1 := by omega
        simp [h, h1]
      · have h1 : (countFence xs + 1) % 2 = 0 := by omega
        simp [h, h1]
    · have hstep : fenceToggle b (x :: xs) = fenceToggle b xs := by
        simp [fenceToggle, hf]
      rw [hstep, ih b, countFence_cons, if_neg hf]

theorem fenceToggle_of_even {xs : List Str} (b : Bool) (h : countFence xs % 2 = 0) :
    fenceToggle b xs = b := by
  rw [fenceToggle_eq_parity, if_pos h]

theorem dropFenced_cons_fence {x : Str} (hf : startsWithFence (rustTrim x) = true)
    (b : Bool) (rest : List Str) :
    dropFenced b (x :: rest) = dropFenced (!b) rest := by
  simp [dropFenced, hf]

theorem dropFenced_cons_inside {x : Str} (hf : startsWithFence (rustTrim x) = false)
    (rest : List Str) :
    dropFenced true (x :: rest) = dropFenced true rest := by
  simp [dropFenced, hf]

theorem dropFenced_cons_keep {x : Str} (hf : startsWithFence (rustTrim x) = false)
    (rest : List Str) :
    dropFenced false (x :: rest) = x :: dropFenced false rest := by
  simp [dropFenced, hf]

theorem dropFenced_append :
    ∀ (xs : List Str) (b : Bool) (ys : List Str),
      dropFenced b (xs ++ ys) = dropFenced b xs ++ dropFenced (fenceToggle b xs) ys := by
  intro xs
  induction xs with
  | nil => intro b ys; rfl
  | cons x xs ih =>
    intro b ys
    by_cases hf : startsWithFence (rustTrim x) = true
    · have ht : fenceToggle b (x :: xs) = fenceToggle (!b) xs := by simp [fenceToggle, hf]
      show dropFenced b (x :: (xs ++ ys)) = _
      rw [dropFenced_cons_fence hf, dropFenced_cons_fence hf, ht]
      exact ih (!b) ys
    · have hf' : startsWithFence (rustTrim x) = false := Bool.eq_false_iff.mpr hf
      have ht : fenceToggle b (x :: xs) = fenceToggle b xs := by simp [fenceToggle, hf]
      cases b with
      | true =>
        show dropFenced true (x :: (xs ++ ys)) = _
        rw [dropFenced_cons_inside hf', dropFenced_cons_inside hf', ht]
        exact ih true ys
      | false =>
        show dropFenced false (x :: (xs ++ ys)) = _
        rw [dropFenced_cons_keep hf', dropFenced_cons_keep hf', ht, ih false ys]
        simp

/-! Factorization of the two preprocessors through `dropFenced`. -/

theorem singleFileGo_eq :
    ∀ (L : List Str) (b : Bool),
      singleFileGo b L = joinAll ((dropFenced b L).map (fun l => l ++ ['\n'])) := by
  intro L
  induction L with
  | nil => intro b; rfl
  | cons x rest ih =>
    intro b
    by_cases hf : startsWithFence (rustTrim x) = true
    · simp only [singleFileGo, dropFenced, if_pos hf]
      exact ih (!b)
    · cases b with
      | true =>
        simp only [singleFileGo, dropFenced, if_neg hf, if_pos rfl]
        exact ih true
      | false =>
        simp only [singleFileGo, dropFenced, if_neg hf]
        rw [ih false]
        simp

theorem combinedGo_eq :
    ∀ (L : List Str) (b : Bool),
      combinedGo b L = joinAll ((dropFenced b L).map (fun l => headingAdjustLine l ++ ['\n'])) := by
  intro L
  induction L with
  | nil => intro b; rfl
  | cons x rest ih =>
    intro b
    by_cases hf : startsWithFence (rustTrim x) = true
    · simp only [combinedGo, dropFenced, if_pos hf]
      exact ih (!b)
    · cases b with
      | true =>
        simp only [combinedGo, dropFenced, if_neg hf, if_pos rfl]
        exact ih true
      | false =>
        simp only [combinedGo, dropFenced, if_neg hf]
        rw [ih false]
        by_cases hh : startsWithHash (rustTrim x) = true
        · simp [headingAdjustLine, hh]
        · simp [headingAdjustLine, hh]

/-! Lemmas about trimming, `stripCR` and heading runs. -/

theorem isWS_cr : isRustWhitespace '\r' = true := by decide

theorem not_isWS_hash : isRustWhitespace '#' = false := by decide

theorem trimEnd_append_cr (x : Str) : trimEnd (x ++ ['\r']) = trimEnd x := by
  simp [trimEnd, List.reverse_append, List.dropWhile_cons, isWS_cr]

theorem rustTrim_append_cr (x : Str) : rustTrim (x ++ ['\r']) = rustTrim x := by
  unfold rustTrim
  rw [List.dropWhile_append]
  by_cases h : (x.dropWhile isRustWhitespace).isEmpty = true
  · rw [if_pos h]
    have hx : x.dropWhile isRustWhitespace = [] := List.isEmpty_iff.mp h
    rw [hx]
    simp [List.dropWhile_cons, isWS_cr, trimEnd]
  · rw [if_neg h, trimEnd_append_cr]

theorem rustTrim_stripCR (l : Str) : rustTrim (stripCR l) = rustTrim l := by
  unfold stripCR
  by_cases h : l.getLast? = some '\r'
  · rw [if_pos h]
    rcases List.getLast?_eq_some_iff.mp h with ⟨ys, rfl⟩
    rw [List.dropLast_concat, rustTrim_append_cr]
  · rw [if_neg h]

theorem trimEnd_cons_not_ws {c : Char} (h : isRustWhitespace c = false) (rest : Str) :
    trimEnd (c :: rest) = c :: trimEnd rest := by
  unfold trimEnd
  rw [show (c :: rest).reverse = rest.reverse ++ [c] from by simp, List.dropWhile_append]
  by_cases he : (rest.reverse.dropWhile isRustWhitespace).isEmpty = true
  · rw [if_pos he]
    have hx : rest.reverse.dropWhile isRustWhitespace = [] := List.isEmpty_iff.mp he
    simp [List.dropWhile_cons, h, hx]
  · rw [if_neg he]
    simp [List.reverse_append]

theorem rustTrim_cons_not_ws {c : Char} (h : isRustWhitespace c = false) (rest : Str) :
    rustTrim (c :: rest) = c :: trimEnd rest := by
  unfold rustTrim
  rw [List.dropWhile_cons, if_neg (by simp [h]), trimEnd_cons_not_ws h]

theorem fence_head_not_backtick {c : Char} (h : ¬(c = backtick)) (t : Str) :
    startsWithFence (c :: t) = false := by
  cases t with
  | nil => rfl
  | cons b t2 =>
    cases t2 with
    | nil => rfl
    | cons d t3 =>
      simp only [startsWithFence, decide_eq_false_iff_not]
      rintro ⟨h1, -⟩
      exact h h1

theorem hash_ne_backtick : ¬(('#' : Char) = backtick) := by decide

theorem mem_rustTrim {c : Char} {l : Str} (h : c ∈ rustTrim l) : c ∈ l := by
  unfold rustTrim trimEnd at h
  have h1 := List.mem_reverse.mp h
  have h2 := (List.dropWhile_sublist isRustWhitespace).subset h1
  have h3 := List.mem_reverse.mp h2
  exact (List.dropWhile_sublist isRustWhitespace).subset h3

theorem mem_headingAdjustLine {c : Char} {l : Str} (h : c ∈ headingAdjustLine l) :
    c ∈ l ∨ c = '#' := by
  unfold headingAdjustLine at h
  by_cases hh : startsWithHash (rustTrim l) = true
  · rw [if_pos hh] at h
    rcases List.mem_append.mp h with h1 | h2
    · exact Or.inr (List.mem_replicate.mp h1).2
    · exact Or.inl (mem_rustTrim (List.drop_subset _ _ h2))
  · rw [if_neg hh] at h
    exact Or.inl h

theorem headingAdjustLine_no_fence {l : Str} (hl : startsWithFence (rustTrim l) = false) :
    startsWithFence (rustTrim (headingAdjustLine l)) = false := by
  unfold headingAdjustLine
  by_cases hh : startsWithHash (rustTrim l) = true
  · rw [if_pos hh, List.replicate_succ, List.cons_append,
      rustTrim_cons_not_ws not_isWS_hash]
    exact fence_head_not_backtick hash_ne_backtick _
  · rw [if_neg hh]
    exact hl

theorem drop_length_takeWhile {α : Type} (p : α → Bool) :
    ∀ (l : List α), l.drop (l.takeWhile p).length = l.dropWhile p := by
  intro l
  induction l with
  | nil => rfl
  | cons a l ih =>
    by_cases h : p a = true
    · simp [List.takeWhile_cons, List.dropWhile_cons, h, ih]
    · simp [List.takeWhile_cons, List.dropWhile_cons, h]

theorem takeWhile_dropWhile_nil {α : Type} (p : α → Bool) :
    ∀ (l : List α), (l.dropWhile p).takeWhile p = [] := by
  intro l
  induction l with
  | nil => rfl
  | cons a l ih =>
    by_cases h : p a = true
    · simp [List.dropWhile_cons, h, ih]
    · simp [List.dropWhile_cons, List.takeWhile_cons, h]

theorem takeWhile_replicate_hash (n : Nat) :
    (List.replicate n '#').takeWhile (fun c => decide (c = '#')) = List.replicate n '#' := by
  induction n with
  | zero => rfl
  | succ n ih => simp [List.replicate_succ, List.takeWhile_cons, ih]

theorem leadHash_heading (t : Str) :
    leadHash (List.replicate (leadHash t + 2) '#' ++ t.drop (leadHash t)) = leadHash t + 2 := by
  unfold leadHash
  rw [show t.drop (t.takeWhile (fun c => decide (c = '#'))).length =
      t.dropWhile (fun c => decide (c = '#')) from drop_length_takeWhile _ t]
  rw [List.takeWhile_append, takeWhile_replicate_hash]
  rw [if_pos (by simp), takeWhile_dropWhile_nil]
  simp

/-! Claim theorems about the preprocessors. -/

/-- C1, counterexample: on the single heading line `"# a "` the claim's
per-line transform (`k` hashes counted on the original line, remainder of the
original line kept unchanged) predicts `"### a "`, but `preprocess_markdown`
emits `"### a"` — trailing (and leading) whitespace of a heading line is
discarded because the rewrite works on the trimmed line. -/
theorem c1_headingOffset_counterexample :
    claimHeadingLine ("# a ".data) = ("### a ".data) ∧
    preprocess_markdown ("# a ".data) = ("### a\n".data) ∧
    preprocess_markdown ("# a ".data) ≠ claimHeadingLine ("# a ".data) ++ ['\n'] := by
  refine ⟨by decide, by decide, by decide⟩

/-- C1 (amended): outside fences, a line whose trimmed form starts with `#`
is emitted as exactly `k + 2` leading `#` characters (`k` the leading `#`
run length of the trimmed line) followed by the unchanged remainder of the
trimmed line; all non-heading lines outside fences are copied verbatim;
compositionally, `preprocess_markdown` is this per-line transform mapped
over the fence-filtered lines. -/
theorem c1_headingOffset (s : Str) :
    preprocess_markdown s =
      joinAll ((dropFenced false (rustLines s)).map (fun l => headingAdjustLine l ++ ['\n'])) ∧
    (∀ l : Str, startsWithHash (rustTrim l) = true →
      headingAdjustLine l =
        List.replicate (leadHash (rustTrim l) + 2) '#' ++
          (rustTrim l).drop (leadHash (rustTrim l)) ∧
      leadHash (headingAdjustLine l) = leadHash (rustTrim l) + 2) ∧
    (∀ l : Str, startsWithHash (rustTrim l) = false → headingAdjustLine l = l) := by
  refine ⟨combinedGo_eq _ _, ?_, ?_⟩
  · intro l hl
    constructor
    · unfold headingAdjustLine
      rw [if_pos hl]
    · unfold headingAdjustLine
      rw [if_pos hl]
      exact leadHash_heading (rustTrim l)
  · intro l hl
    unfold headingAdjustLine
    rw [if_neg (by simp [hl])]

/-- C1 witness: the heading line `"## x"` is rewritten with exactly `2 + 2`
leading hashes. -/
theorem c1_headingOffset_witness :
    startsWithHash (rustTrim ("## x".data)) = true ∧
    (headingAdjustLine ("## x".data) =
      List.replicate (leadHash (rustTrim ("## x".data)) + 2) '#' ++
        (rustTrim ("## x".data)).drop (leadHash (rustTrim ("## x".data))) ∧
     leadHash (headingAdjustLine ("## x".data)) = leadHash (rustTrim ("## x".data)) + 2) :=
  ⟨by decide, (c1_headingOffset ("## x".data)).2.1 ("## x".data) (by decide)⟩

/-- C2: in both preprocessor variants the kept lines are exactly those the
fence automaton keeps (fence-delimiter lines toggle the flag and are
dropped, lines inside a fence are dropped), no kept line is a fence
delimiter, and no line of either output is a fence delimiter. -/
theorem c2_fenceStripping (s : Str) :
    preprocess_markdown_single_file s =
      joinAll ((dropFenced false (rustLines s)).map (fun l => l ++ ['\n'])) ∧
    preprocess_markdown s =
      joinAll ((dropFenced false (rustLines s)).map (fun l => headingAdjustLine l ++ ['\n'])) ∧
    (∀ l : Str, l ∈ dropFenced false (rustLines s) → startsWithFence (rustTrim l) = false) ∧
    (∀ l : Str, l ∈ rustLines (preprocess_markdown_single_file s) →
      startsWithFence (rustTrim l) = false) ∧
    (∀ l : Str, l ∈ rustLines (preprocess_markdown s) →
      startsWithFence (rustTrim l) = false) := by
  have hKnl : ∀ x ∈ dropFenced false (rustLines s), '\n' ∉ x :=
    fun x hx => rustLines_no_newline x (mem_dropFenced hx)
  refine ⟨singleFileGo_eq _ _, combinedGo_eq _ _, fun l hl => dropFenced_no_fence hl, ?_, ?_⟩
  · intro l hl
    rw [show preprocess_markdown_single_file s =
        joinAll ((dropFenced false (rustLines s)).map (fun l => l ++ ['\n'])) from
        singleFileGo_eq _ _, rustLines_join hKnl] at hl
    rcases List.mem_map.mp hl with ⟨x, hx, rfl⟩
    rw [rustTrim_stripCR]
    exact dropFenced_no_fence hx
  · intro l hl
    rw [show preprocess_markdown s =
        joinAll ((dropFenced false (rustLines s)).map (fun l => headingAdjustLine l ++ ['\n'])) from
        combinedGo_eq _ _,
      show (dropFenced false (rustLines s)).map (fun l => headingAdjustLine l ++ ['\n']) =
        ((dropFenced false (rustLines s)).map headingAdjustLine).map (fun l => l ++ ['\n']) from by
        rw [List.map_map]; rfl] at hl
    have hHnl : ∀ x ∈ (dropFenced false (rustLines s)).map headingAdjustLine, '\n' ∉ x := by
      intro x hx hm
      rcases List.mem_map.mp hx with ⟨y, hy, rfl⟩
      rcases mem_headingAdjustLine hm with h | h
      · exact hKnl y hy h
      · exact absurd h (by decide)
    rw [rustLines_join hHnl] at hl
    rcases List.mem_map.mp hl with ⟨x, hx, rfl⟩
    rcases List.mem_map.mp hx with ⟨y, hy, rfl⟩
    rw [rustTrim_stripCR]
    exact headingAdjustLine_no_fence (dropFenced_no_fence hy)

/-- C2 witness: in the output for an input with a fenced block, the line
`"keep"` survives and is not a fence delimiter. -/
theorem c2_fenceStripping_witness :
    (("keep".data) ∈ rustLines (preprocess_markdown_single_file ("keep\n```\nx\n```\nalso".data))) ∧
    startsWithFence (rustTrim ("keep".data)) = false :=
  ⟨by decide,
   (c2_fenceStripping ("keep\n```\nx\n```\nalso".data)).2.2.2.1 ("keep".data) (by decide)⟩

/-- C6: the offsetting normalizer is not idempotent; on `"# a"` one
application yields `"### a\n"` and a second application shifts the heading
further to `"##### a\n"`. -/
theorem c6_notIdempotent :
    preprocess_markdown ("# a".data) = ("### a\n".data) ∧
    preprocess_markdown (preprocess_markdown ("# a".data)) = ("##### a\n".data) ∧
    preprocess_markdown (preprocess_markdown ("# a".data)) ≠ preprocess_markdown ("# a".data) := by
  refine ⟨by decide, by decide, by decide⟩

/-- C9, counterexample: the non-offsetting normalizer is not idempotent on
every input.  For the input `"a\r"` (a final line ending in a bare carriage
return) the output is `"a\r\n"`, and reprocessing that output strips the
`\r` (Rust `lines` removes a `\r` that precedes a `\n`), giving `"a\n"`. -/
theorem c9_idempotent_counterexample :
    preprocess_markdown_single_file ("a\r".data) = ("a\r\n".data) ∧
    preprocess_markdown_single_file (preprocess_markdown_single_file ("a\r".data)) =
      ("a\n".data) ∧
    preprocess_markdown_single_file (preprocess_markdown_single_file ("a\r".data)) ≠
      preprocess_markdown_single_file ("a\r".data) := by
  refine ⟨by decide, by decide, by decide⟩

/-- C9 (amended): on every input containing no carriage-return character,
`preprocess_markdown_single_file` applied to its own output returns that
output unchanged. -/
theorem c9_idempotent (s : Str) (h : '\r' ∉ s) :
    preprocess_markdown_single_file (preprocess_markdown_single_file s) =
      preprocess_markdown_single_file s := by
  have hKnl : ∀ x ∈ dropFenced false (rustLines s), '\n' ∉ x :=
    fun x hx => rustLines_no_newline x (mem_dropFenced hx)
  have hKcr : ∀ x ∈ dropFenced false (rustLines s), '\r' ∉ x :=
    fun x hx hc => h (rustLines_char_mem (mem_dropFenced hx) hc)
  have h1 : preprocess_markdown_single_file s =
      joinAll ((dropFenced false (rustLines s)).map (fun l => l ++ ['\n'])) :=
    singleFileGo_eq _ _
  have h2 : rustLines (preprocess_markdown_single_file s) = dropFenced false (rustLines s) := by
    rw [h1, rustLines_join hKnl]
    calc (dropFenced false (rustLines s)).map stripCR
        = (dropFenced false (rustLines s)).map id :=
          List.map_congr_left fun x hx => stripCR_eq_self (hKcr x hx)
      _ = dropFenced false (rustLines s) := List.map_id _
  rw [show preprocess_markdown_single_file (preprocess_markdown_single_file s) =
      singleFileGo false (rustLines (preprocess_markdown_single_file s)) from rfl, h2,
    singleFileGo_eq (dropFenced false (rustLines s)) false,
    dropFenced_all_keep (fun l hl => dropFenced_no_fence hl), ← h1]

/-- C9 witness: idempotence on a CR-free input with a fenced block. -/
theorem c9_idempotent_witness :
    ('\r' ∉ ("# t\n```\nhidden\n```\nbody".data)) ∧
    preprocess_markdown_single_file
        (preprocess_markdown_single_file ("# t\n```\nhidden\n```\nbody".data)) =
      preprocess_markdown_single_file ("# t\n```\nhidden\n```\nbody".data) :=
  ⟨by decide, c9_idempotent ("# t\n```\nhidden\n```\nbody".data) (by decide)⟩

/-- C10: when the line list ends with an unmatched opening fence delimiter
(even fence count before it, no fence delimiter after it), both preprocessor
variants drop that delimiter and every following line: the output depends
only on the lines before the delimiter. -/
theorem c10_unclosedFence (s : Str) (L1 : List Str) (d : Str) (L2 : List Str)
    (hL : rustLines s = L1 ++ d :: L2)
    (hd : startsWithFence (rustTrim d) = true)
    (he : countFence L1 % 2 = 0)
    (h2 : countFence L2 = 0) :
    preprocess_markdown_single_file s =
      joinAll ((dropFenced false L1).map (fun l => l ++ ['\n'])) ∧
    preprocess_markdown s =
      joinAll ((dropFenced false L1).map (fun l => headingAdjustLine l ++ ['\n'])) := by
  have hL2 : ∀ l ∈ L2, startsWithFence (rustTrim l) = false := by
    intro l hl
    have hnil : L2.filter (fun l => startsWithFence (rustTrim l)) = [] :=
      List.length_eq_zero.mp h2
    cases hb : startsWithFence (rustTrim l)
    · rfl
    · have : l ∈ L2.filter (fun l => startsWithFence (rustTrim l)) :=
        List.mem_filter.mpr ⟨hl, hb⟩
      rw [hnil] at this
      simp at this
  have key : dropFenced false (rustLines s) = dropFenced false L1 := by
    rw [hL, dropFenced_append, fenceToggle_of_even false he,
      dropFenced_cons_fence hd, Bool.not_false, dropFenced_inside_nil hL2, List.append_nil]
  constructor
  · rw [show preprocess_markdown_single_file s =
        joinAll ((dropFenced false (rustLines s)).map (fun l => l ++ ['\n'])) from
        singleFileGo_eq _ _, key]
  · rw [show preprocess_markdown s =
        joinAll ((dropFenced false (rustLines s)).map (fun l => headingAdjustLine l ++ ['\n'])) from
        combinedGo_eq _ _, key]

/-- C10 witness: `"a\n```\nb\nc"` has an unclosed fence; everything from the
delimiter on is dropped and both outputs are `"a\n"`. -/
theorem c10_unclosedFence_witness :
    rustLines ("a\n```\nb\nc".data) = [("a".data), ("```".data), ("b".data), ("c".data)] ∧
    (preprocess_markdown_single_file ("a\n```\nb\nc".data) =
      joinAll ((dropFenced false [("a".data)]).map (fun l => l ++ ['\n'])) ∧
     preprocess_markdown ("a\n```\nb\nc".data) =
      joinAll ((dropFenced false [("a".data)]).map (fun l => headingAdjustLine l ++ ['\n']))) :=
  ⟨by decide,
   c10_unclosedFence ("a\n```\nb\nc".data) [("a".data)] ("```".data)
     [("b".data), ("c".data)] (by decide) (by decide) (by decide) (by decide)⟩

/-! Claim theorems about the renderer and the assembler. -/

/-- C3: inside `markdown_to_html` the text handed to the parser is exactly
one application of the non-offsetting normalizer to the renderer's input
(for every parser function, the output is a fixed frame around
`parse (preprocess_markdown_single_file markdown)`); the single-file path
hands the renderer the already-normalized raw text, and the directory path
hands it the assembler's composite text — in both paths the renderer behaves
identically on its input, regardless of earlier transforms. -/
theorem c3_parserInput (dark_mode : Bool) :
    (∀ markdown : Str, ∃ pre post : Str, ∀ parse : Str → Str,
        markdown_to_html parse markdown dark_mode =
          pre ++ parse (preprocess_markdown_single_file markdown) ++ post) ∧
    (∀ (parse : Str → Str) (raw : Str),
        single_file_mode parse raw dark_mode =
          markdown_to_html parse (preprocess_markdown_single_file raw) dark_mode) ∧
    (∀ (parse : Str → Str) (files_by_dir : List (Str × List MarkdownFile)) (title : Str),
        directory_render parse files_by_dir title dark_mode =
          markdown_to_html parse (create_combined_markdown files_by_dir title) dark_mode) := by
  refine ⟨?_, fun parse raw => rfl, fun parse m title => rfl⟩
  intro markdown
  refine ⟨pageSeg1 ++
      (if dark_mode then ("background-color: #1a1a1a; color: #e0e0e0;".data)
       else ("background-color: white; color: black;".data)) ++ pageSeg2 ++
      (if dark_mode then ("#2d2d2d".data) else ("#f5f5f5".data)) ++ pageSeg3 ++
      (if dark_mode then ("#2d2d2d".data) else ("#f5f5f5".data)) ++ pageSeg4 ++
      (if dark_mode then ("#3a3a3a".data) else ("#f9f9f9".data)) ++ pageSeg5,
    pageSeg6, fun parse => ?_⟩
  simp [markdown_to_html, List.append_assoc]

/-- C8: toggling the dark-mode flag changes only the theme slots of the
rendered page — the body background/foreground declaration, the two
occurrences of the code/pre background color and the table-header background
color, each drawn from two fixed literal palettes; every other part
(`s1`–`s5`, which include the parsed fragment) is identical between the two
runs. -/
theorem c8_themeIsolation (parse : Str → Str) (text : Str) :
    ∃ s1 s2 s3 s4 s5 : Str,
      markdown_to_html parse text true =
        s1 ++ ("background-color: #1a1a1a; color: #e0e0e0;".data) ++ s2 ++
          ("#2d2d2d".data) ++ s3 ++ ("#2d2d2d".data) ++ s4 ++ ("#3a3a3a".data) ++ s5 ∧
      markdown_to_html parse text false =
        s1 ++ ("background-color: white; color: black;".data) ++ s2 ++
          ("#f5f5f5".data) ++ s3 ++ ("#f5f5f5".data) ++ s4 ++ ("#f9f9f9".data) ++ s5 := by
  refine ⟨pageSeg1, pageSeg2, pageSeg3, pageSeg4,
    pageSeg5 ++ parse (preprocess_markdown_single_file text) ++ pageSeg6, ?_, ?_⟩ <;>
    simp [markdown_to_html, List.append_assoc]

theorem assembler_files_foldl (fs : List MarkdownFile) :
    ∀ acc : Str,
      fs.foldl
        (fun c f =>
          c ++ ("## ".data) ++ f.name ++ ("\n\n".data) ++
            preprocess_markdown f.content ++ ("\n\n---\n\n".data))
        acc
      = acc ++ joinAll (fs.map docBlock) := by
  induction fs with
  | nil => intro acc; simp
  | cons f fs ih =>
    intro acc
    rw [List.foldl_cons, ih]
    simp [docBlock, List.append_assoc]

theorem assembler_groups_foldl (m : List (Str × List MarkdownFile)) :
    ∀ acc : Str,
      m.foldl
        (fun combined g =>
          (g.2.foldl
            (fun c f =>
              c ++ ("## ".data) ++ f.name ++ ("\n\n".data) ++
                preprocess_markdown f.content ++ ("\n\n---\n\n".data))
            (if g.1 ≠ rootKey then combined ++ ("# ".data) ++ g.1 ++ ("\n\n".data) else combined)))
        acc
      = acc ++ joinAll (m.map groupBlock) := by
  induction m with
  | nil => intro acc; simp
  | cons g m ih =>
    intro acc
    rw [List.foldl_cons, assembler_files_foldl, ih]
    by_cases hr : g.1 = rootKey
    · simp [groupBlock, hr, List.append_assoc]
    · simp [groupBlock, hr, List.append_assoc]

/-- C4: the assembler's composite text is one level-1 title heading followed
by a blank line, then for each group in order a level-1 heading with the
group key (omitted for the `"Root"` sentinel) and, for each document in the
group's order, a level-2 heading with the document's name, the document's
body normalized by the offsetting (`+2`) variant, and a `---` separator
framed by blank lines. -/
theorem c4_assemblerLayout (files_by_dir : List (Str × List MarkdownFile)) (title : Str) :
    create_combined_markdown files_by_dir title =
      ("# ".data) ++ title ++ ("\n\n".data) ++ joinAll (files_by_dir.map groupBlock) := by
  unfold create_combined_markdown
  rw [assembler_groups_foldl]

/-! Claim theorems about the discoverer's empty-scan behavior. -/

theorem collectGo_skip :
    ∀ (entries : List DirEntry) (acc : List (Str × List MarkdownFile)),
      (∀ e ∈ entries, eligible e = false) → collectGo acc entries = Except.ok acc := by
  intro entries
  induction entries with
  | nil => intro acc _; rfl
  | cons e es ih =>
    intro acc h
    have he : eligible e = false := h e (by simp)
    simp only [collectGo, he]
    exact ih acc (fun x hx => h x (List.mem_cons_of_mem _ hx))

/-- C7, counterexample: on a scan that yields zero eligible documents (here
one non-Markdown file) the discoverer `collect_markdown_files` returns the
empty group map `ok []`, not an error of any kind. -/
theorem c7_emptyScan_counterexample :
    collect_markdown_files [txtEntry] = Except.ok [] ∧
    ∀ err : CollectError, collect_markdown_files [txtEntry] ≠ Except.error err := by
  have h : collect_markdown_files [txtEntry] = Except.ok [] := rfl
  refine ⟨h, fun err he => ?_⟩
  rw [h] at he
  exact Except.noConfusion he

/-- C7 (amended): when a directory scan yields zero eligible documents,
`collect_markdown_files` returns an empty group map without error, and the
caller (the directory branch of `main`) detects the empty map and fails with
the no-files error. -/
theorem c7_emptyScan (entries : List DirEntry) (h : ∀ e ∈ entries, eligible e = false) :
    collect_markdown_files entries = Except.ok [] ∧
    ∀ (parse : Str → Str) (title : Str) (dark_mode : Bool),
      directory_mode parse entries title dark_mode = Except.error PipelineError.noMdFiles := by
  have h1 : collect_markdown_files entries = Except.ok [] := by
    unfold collect_markdown_files
    rw [collectGo_skip entries [] h]
    rfl
  refine ⟨h1, fun parse title dark_mode => ?_⟩
  unfold directory_mode
  rw [h1]
  rfl

/-- C7 witness: a scan consisting of one `.txt` file. -/
theorem c7_emptyScan_witness :
    (∀ e ∈ [txtEntry], eligible e = false) ∧
    (collect_markdown_files [txtEntry] = Except.ok [] ∧
     ∀ (parse : Str → Str) (title : Str) (dark_mode : Bool),
       directory_mode parse [txtEntry] title dark_mode =
         Except.error PipelineError.noMdFiles) :=
  ⟨by decide, c7_emptyScan [txtEntry] (by decide)⟩

/-! Order lemmas for the lexicographic string comparison. -/

theorem strLt_irrefl : ∀ s : Str, strLt s s = false := by
  intro s
  induction s with
  | nil => rfl
  | cons a as ih => simp [strLt, lt_irrefl, ih]

theorem strLt_trans : ∀ {a b c : Str}, strLt a b = true → strLt b c = true → strLt a c = true := by
  intro a
  induction a with
  | nil =>
    intro b c hab hbc
    cases b with
    | nil => simp [strLt] at hab
    | cons y ys =>
      cases c with
      | nil => simp [strLt] at hbc
      | cons z zs => rfl
  | cons x xs ih =>
    intro b c hab hbc
    cases b with
    | nil => simp [strLt] at hab
    | cons y ys =>
      cases c with
      | nil => simp [strLt] at hbc
      | cons z zs =>
        by_cases hxy : x < y
        · by_cases hyz : y < z
          · simp [strLt, lt_trans hxy hyz]
          · by_cases hyz2 : y = z
            · subst hyz2
              simp [strLt, hxy]
            · simp [strLt, hyz, hyz2] at hbc
        · by_cases hxy2 : x = y
          · subst hxy2
            by_cases hyz : x < z
            · simp [strLt, hyz]
            · by_cases hyz2 : x = z
              · subst hyz2
                simp only [strLt, if_neg (lt_irrefl x), if_pos rfl] at hab hbc ⊢
                exact ih hab hbc
              · simp [strLt, hyz, hyz2] at hbc
          · simp [strLt, hxy, hxy2] at hab

theorem strLt_connex : ∀ (a b : Str), a = b ∨ strLt a b = true ∨ strLt b a = true := by
  intro a
  induction a with
  | nil =>
    intro b
    cases b with
    | nil => exact Or.inl rfl
    | cons y ys => exact Or.inr (Or.inl rfl)
  | cons x xs ih =>
    intro b
    cases b with
    | nil => exact Or.inr (Or.inr rfl)
    | cons y ys =>
      rcases lt_trichotomy x y with h | h | h
      · exact Or.inr (Or.inl (by simp [strLt, h]))
      · subst h
        rcases ih ys with h2 | h2 | h2
        · exact Or.inl (by rw [h2])
        · exact Or.inr (Or.inl (by simp [strLt, lt_irrefl, h2]))
        · exact Or.inr (Or.inr (by simp [strLt, lt_irrefl, h2]))
      · exact Or.inr (Or.inr (by simp [strLt, h]))

theorem strLt_asymm {a b : Str} (h : strLt a b = true) : strLt b a = false := by
  cases hb : strLt b a
  · rfl
  · have habs := strLt_trans h hb
    rw [strLt_irrefl] at habs
    exact absurd habs (by simp)

/-! Lemmas about the `BTreeMap` model `insertFile` and the group sort. -/

theorem insertFile_keys :
    ∀ (m : List (Str × List MarkdownFile)) (key : Str) (f : MarkdownFile)
      (g : Str × List MarkdownFile), g ∈ insertFile m key f →
      g.1 = key ∨ g.1 ∈ m.map Prod.fst := by
  intro m
  induction m with
  | nil =>
    intro key f g hg
    simp [insertFile] at hg
    rw [hg]
    exact Or.inl rfl
  | cons p rest ih =>
    intro key f g hg
    obtain ⟨k, fs⟩ := p
    by_cases h1 : strLt key k = true
    · simp only [insertFile, if_pos h1] at hg
      rcases List.mem_cons.mp hg with h | h
      · rw [h]
        exact Or.inl rfl
      · rcases List.mem_cons.mp h with h' | h'
        · rw [h']
          right
          simp
        · right
          simp only [List.map_cons]
          exact List.mem_cons_of_mem _ (List.mem_map_of_mem Prod.fst h')
    · by_cases h2 : key = k
      · simp only [insertFile, if_neg h1, if_pos h2] at hg
        rcases List.mem_cons.mp hg with h | h
        · rw [h]
          exact Or.inl h2.symm
        · right
          simp only [List.map_cons]
          exact List.mem_cons_of_mem _ (List.mem_map_of_mem Prod.fst h)
      · simp only [insertFile, if_neg h1, if_neg h2] at hg
        rcases List.mem_cons.mp hg with h | h
        · rw [h]
          right
          simp
        · rcases ih key f g h with h' | h'
          · exact Or.inl h'
          · right
            simp only [List.map_cons]
            exact List.mem_cons_of_mem _ h'

theorem insertFile_sorted :
    ∀ (m : List (Str × List MarkdownFile)) (key : Str) (f : MarkdownFile),
      List.Pairwise (fun a b : Str × List MarkdownFile => strLt a.1 b.1 = true) m →
      List.Pairwise (fun a b : Str × List MarkdownFile => strLt a.1 b.1 = true)
        (insertFile m key f) := by
  intro m
  induction m with
  | nil =>
    intro key f _
    simp [insertFile]
  | cons p rest ih =>
    intro key f hp
    obtain ⟨k, fs⟩ := p
    rw [List.pairwise_cons] at hp
    obtain ⟨hk, hrest⟩ := hp
    by_cases h1 : strLt key k = true
    · simp only [insertFile, if_pos h1]
      refine List.Pairwise.cons ?_ (List.Pairwise.cons hk hrest)
      intro g hg
      rcases List.mem_cons.mp hg with h | h
      · rw [h]
        exact h1
      · exact strLt_trans h1 (hk g h)
    · by_cases h2 : key = k
      · simp only [insertFile, if_neg h1, if_pos h2]
        exact List.Pairwise.cons hk hrest
      · simp only [insertFile, if_neg h1, if_neg h2]
        refine List.Pairwise.cons ?_ (ih key f hrest)
        intro g hg
        rcases insertFile_keys rest key f g hg with h | h
        · rw [h]
          rcases strLt_connex key k with hc | hc | hc
          · exact absurd hc h2
          · exact absurd hc h1
          · exact hc
        · rcases List.mem_map.mp h with ⟨x, hx, hxe⟩
          rw [← hxe]
          exact hk x hx

@[simp] theorem flattenGroups_nil : flattenGroups [] = [] := rfl

@[simp] theorem flattenGroups_cons (k : Str) (fs : List MarkdownFile)
    (rest : List (Str × List MarkdownFile)) :
    flattenGroups ((k, fs) :: rest) = fs.map (fun f => (k, f)) ++ flattenGroups rest := rfl

theorem flatten_insertFile_perm :
    ∀ (m : List (Str × List MarkdownFile)) (key : Str) (fl : MarkdownFile),
      List.Perm (flattenGroups (insertFile m key fl)) ((key, fl) :: flattenGroups m) := by
  intro m
  induction m with
  | nil =>
    intro key fl
    simp [insertFile]
  | cons p rest ih =>
    intro key fl
    obtain ⟨k0, fs0⟩ := p
    by_cases h1 : strLt key k0 = true
    · simp only [insertFile, if_pos h1, flattenGroups_cons]
      simp
    · by_cases h2 : key = k0
      · subst h2
        rw [show insertFile ((key, fs0) :: rest) key fl = (key, fs0 ++ [fl]) :: rest from by
          simp [insertFile, h1]]
        rw [flattenGroups_cons, flattenGroups_cons, List.map_append, List.append_assoc]
        simp
      · simp only [insertFile, if_neg h1, if_neg h2, flattenGroups_cons]
        refine List.Perm.trans (List.Perm.append_left _ (ih key fl)) ?_
        exact List.perm_middle

/-! Lemmas about the per-group stable sort. -/

theorem mem_insertSorted {x f : MarkdownFile} :
    ∀ {l : List MarkdownFile}, x ∈ insertSorted f l ↔ x = f ∨ x ∈ l := by
  intro l
  induction l with
  | nil => simp [insertSorted]
  | cons g gs ih =>
    by_cases h : strLt f.name g.name = true
    · simp [insertSorted, h]
    · simp only [insertSorted, if_neg h, List.mem_cons, ih]
      tauto

theorem insertSorted_perm (f : MarkdownFile) :
    ∀ (l : List MarkdownFile), List.Perm (insertSorted f l) (f :: l) := by
  intro l
  induction l with
  | nil => exact List.Perm.refl _
  | cons g gs ih =>
    by_cases h : strLt f.name g.name = true
    · simp only [insertSorted, if_pos h]
      exact List.Perm.refl _
    · simp only [insertSorted, if_neg h]
      refine List.Perm.trans (List.Perm.cons g ih) ?_
      exact List.Perm.swap f g gs

theorem insertSorted_sorted (f : MarkdownFile) :
    ∀ {l : List MarkdownFile},
      List.Pairwise (fun a b : MarkdownFile => strLt b.name a.name = false) l →
      List.Pairwise (fun a b : MarkdownFile => strLt b.name a.name = false)
        (insertSorted f l) := by
  intro l
  induction l with
  | nil =>
    intro _
    simp [insertSorted]
  | cons g gs ih =>
    intro hp
    rw [List.pairwise_cons] at hp
    obtain ⟨hg, hgs⟩ := hp
    by_cases hlt : strLt f.name g.name = true
    · simp only [insertSorted, if_pos hlt]
      refine List.Pairwise.cons ?_ (List.Pairwise.cons hg hgs)
      intro x hx
      rcases List.mem_cons.mp hx with h | h
      · rw [h]
        exact strLt_asymm hlt
      · cases hxf : strLt x.name f.name
        · rfl
        · have habs := strLt_trans hxf hlt
          rw [hg x h] at habs
          exact absurd habs (by simp)
    · simp only [insertSorted, if_neg hlt]
      refine List.Pairwise.cons ?_ (ih hgs)
      intro x hx
      rcases mem_insertSorted.mp hx with h | h
      · rw [h]
        cases hb : strLt f.name g.name
        · rfl
        · exact absurd hb hlt
      · exact hg x h

theorem sortFiles_perm_aux :
    ∀ (fs acc : List MarkdownFile),
      List.Perm (fs.foldl (fun acc f => insertSorted f acc) acc) (acc ++ fs) := by
  intro fs
  induction fs with
  | nil =>
    intro acc
    simp
  | cons f fs ih =>
    intro acc
    rw [List.foldl_cons]
    refine List.Perm.trans (ih (insertSorted f acc)) ?_
    refine List.Perm.trans (List.Perm.append_right fs (insertSorted_perm f acc)) ?_
    exact List.perm_middle.symm

theorem sortFiles_perm (fs : List MarkdownFile) : List.Perm (sortFiles fs) fs := by
  have h := sortFiles_perm_aux fs []
  simpa [sortFiles] using h

theorem sortFiles_sorted_aux :
    ∀ (fs acc : List MarkdownFile),
      List.Pairwise (fun a b : MarkdownFile => strLt b.name a.name = false) acc →
      List.Pairwise (fun a b : MarkdownFile => strLt b.name a.name = false)
        (fs.foldl (fun acc f => insertSorted f acc) acc) := by
  intro fs
  induction fs with
  | nil =>
    intro acc h
    exact h
  | cons f fs ih =>
    intro acc h
    rw [List.foldl_cons]
    exact ih _ (insertSorted_sorted f h)

theorem sortFiles_sorted (fs : List MarkdownFile) :
    List.Pairwise (fun a b : MarkdownFile => strLt b.name a.name = false) (sortFiles fs) :=
  sortFiles_sorted_aux fs [] (by simp)

theorem flatten_map_sort_perm :
    ∀ (m : List (Str × List MarkdownFile)),
      List.Perm (flattenGroups (m.map (fun g => (g.1, sortFiles g.2)))) (flattenGroups m) := by
  intro m
  induction m with
  | nil => exact List.Perm.refl _
  | cons g rest ih =>
    obtain ⟨k, fs⟩ := g
    simp only [List.map_cons, flattenGroups_cons]
    exact List.Perm.append (List.Perm.map _ (sortFiles_perm fs)) ih

/-! Invariants of the walk loop. -/

theorem collectGo_sorted :
    ∀ (es : List DirEntry) (acc m : List (Str × List MarkdownFile)),
      collectGo acc es = Except.ok m →
      List.Pairwise (fun a b : Str × List MarkdownFile => strLt a.1 b.1 = true) acc →
      List.Pairwise (fun a b : Str × List MarkdownFile => strLt a.1 b.1 = true) m := by
  intro es
  induction es with
  | nil =>
    intro acc m h hp
    simp [collectGo] at h
    exact h ▸ hp
  | cons e es ih =>
    intro acc m h hp
    by_cases he : eligible e = true
    · cases hc : e.content with
      | none =>
        rw [show collectGo acc (e :: es) = Except.error (CollectError.readError e.relPath) from by
          simp [collectGo, he, hc]] at h
        exact Except.noConfusion h
      | some c =>
        rw [show collectGo acc (e :: es) =
            collectGo (insertFile acc (dirKeyE e) (mkFile e c)) es from by
          simp [collectGo, he, hc]] at h
        exact ih _ m h (insertFile_sorted _ _ _ hp)
    · rw [show collectGo acc (e :: es) = collectGo acc es from by simp [collectGo, he]] at h
      exact ih _ m h hp

theorem collectGo_perm :
    ∀ (es : List DirEntry) (acc m : List (Str × List MarkdownFile)),
      collectGo acc es = Except.ok m →
      List.Perm (flattenGroups m) (flattenGroups acc ++ eligiblePairs es) := by
  intro es
  induction es with
  | nil =>
    intro acc m h
    simp [collectGo] at h
    subst h
    simp [eligiblePairs]
  | cons e es ih =>
    intro acc m h
    by_cases he : eligible e = true
    · cases hc : e.content with
      | none =>
        rw [show collectGo acc (e :: es) = Except.error (CollectError.readError e.relPath) from by
          simp [collectGo, he, hc]] at h
        exact Except.noConfusion h
      | some c =>
        rw [show collectGo acc (e :: es) =
            collectGo (insertFile acc (dirKeyE e) (mkFile e c)) es from by
          simp [collectGo, he, hc]] at h
        have hp := ih _ m h
        have hep : eligiblePairs (e :: es) = (dirKeyE e, mkFile e c) :: eligiblePairs es := by
          simp [eligiblePairs, List.filterMap_cons, entryPair, he, hc]
        rw [hep]
        refine List.Perm.trans hp ?_
        refine List.Perm.trans
          (List.Perm.append_right _ (flatten_insertFile_perm acc (dirKeyE e) (mkFile e c))) ?_
        exact List.perm_middle.symm
    · rw [show collectGo acc (e :: es) = collectGo acc es from by simp [collectGo, he]] at h
      have hep : eligiblePairs (e :: es) = eligiblePairs es := by
        simp [eligiblePairs, List.filterMap_cons, entryPair, he]
      rw [hep]
      exact ih _ m h

/-- C5: whenever the discoverer succeeds, the returned group map has
strictly ascending keys (so iteration is key-ascending and keys are unique),
every group is sorted by ascending case-sensitive name, and the contained
`(key, file)` pairs are exactly — as a multiset, and in membership — the
pairs extracted from the eligible walk entries (regular files with `md`
extension, grouped by parent directory relative to the root, `"Root"` for
the root itself and `" > "`-joined breadcrumbs otherwise). -/
theorem c5_discovererSpec (entries : List DirEntry) (m : List (Str × List MarkdownFile))
    (h : collect_markdown_files entries = Except.ok m) :
    List.Pairwise (fun a b : Str × List MarkdownFile => strLt a.1 b.1 = true) m ∧
    (∀ g ∈ m, List.Pairwise (fun a b : MarkdownFile => strLt b.name a.name = false) g.2) ∧
    List.Perm (flattenGroups m) (eligiblePairs entries) ∧
    (∀ (k : Str) (f : MarkdownFile),
      (k, f) ∈ flattenGroups m ↔ ∃ e ∈ entries, entryPair e = some (k, f)) := by
  unfold collect_markdown_files at h
  cases hg : collectGo [] entries with
  | error err =>
    rw [hg] at h
    exact Except.noConfusion h
  | ok m0 =>
    rw [hg] at h
    have hm : m = m0.map (fun g => (g.1, sortFiles g.2)) := by
      injection h with h'
      exact h'.symm
    subst hm
    have hsorted0 := collectGo_sorted entries [] m0 hg (by simp)
    have hperm0 := collectGo_perm entries [] m0 hg
    rw [flattenGroups_nil, List.nil_append] at hperm0
    have hpermsort := flatten_map_sort_perm m0
    refine ⟨?_, ?_, ?_, ?_⟩
    · exact List.pairwise_map.mpr hsorted0
    · intro g hgm
      rcases List.mem_map.mp hgm with ⟨g0, hg0, rfl⟩
      exact sortFiles_sorted g0.2
    · exact List.Perm.trans hpermsort hperm0
    · intro k f
      rw [(List.Perm.trans hpermsort hperm0).mem_iff]
      simp [eligiblePairs, List.mem_filterMap]

/-- C5 witness: the spec's walk example (`a/x.md`, `a/y.md`, `b/z.md`,
`top.md`, discovered out of order) yields the root group first, then `"a"`
with `x` before `y`, then `"b"`. -/
theorem c5_discovererSpec_witness :
    collect_markdown_files walkExample = Except.ok walkResult ∧
    (List.Pairwise (fun a b : Str × List MarkdownFile => strLt a.1 b.1 = true) walkResult ∧
     (∀ g ∈ walkResult,
       List.Pairwise (fun a b : MarkdownFile => strLt b.name a.name = false) g.2) ∧
     List.Perm (flattenGroups walkResult) (eligiblePairs walkExample) ∧
     (∀ (k : Str) (f : MarkdownFile),
       (k, f) ∈ flattenGroups walkResult ↔ ∃ e ∈ walkExample, entryPair e = some (k, f))) :=
  ⟨rfl, c5_discovererSpec walkExample walkResult rfl⟩

end MdToPdf
